import Mathlib

set_option maxRecDepth 8000

/- Shallow embedding of the ferveo PVSS-DKG and TPKE core:
   src/ferveo/src/pvss.rs, src/ferveo/src/refresh.rs,
   src/tpke/src/ciphertext.rs, src/tpke/src/decryption.rs.

   Group representation.  The library is generic over a pairing-friendly curve
   (BLS12-381 in deployment) with prime-order groups G1, G2, GT, scalar field
   Fr, and a nondegenerate pairing e : G1 x G2 -> GT.  Every element of G1 is
   a multiple of the fixed generator g (likewise h for G2 and e(g,h) for GT),
   and the discrete-logarithm maps are bijections on these prime-order groups.
   We therefore represent a G1/G2/GT element by its exponent in the scalar
   field F: the group operation becomes +, scalar multiplication becomes *,
   the generator becomes 1, and the pairing becomes multiplication of
   exponents, e(a.g, b.h) = (a*b).e(g,h).  Equality of group elements is
   equality of exponents.

   Byte strings are List Nat.  The external primitives of the dependency
   interface (SHA-256, the hash-to-G2 suite, canonical uncompressed
   serialization, the ChaCha20-Poly1305 AEAD) are parameters of the
   development, constrained only by the properties their documented
   interfaces guarantee.

   Rust panics (index out of bounds, expect, zip_eq length mismatch) are
   modelled as Option.none; Rust Result is modelled by RustResult. -/

/-- Result type mirroring a Rust Result value. -/
inductive RustResult (ε α : Type) where
  | ok : α → RustResult ε α
  | err : ε → RustResult ε α
deriving DecidableEq

/-- Error kinds of the ferveo crate used by the modelled code. -/
inductive FerveoError where
  | insufficientValidators : ℕ → ℕ → FerveoError
  | duplicatedShareIndex : ℕ → FerveoError
  | noTranscriptsToAggregate : FerveoError
  | invalidTranscriptAggregate : FerveoError
  | invalidShareIndex : ℕ → FerveoError
deriving DecidableEq

/-- Error kind of the tpke crate used by the modelled code. -/
inductive TpkeError where
  | ciphertextVerificationFailed : TpkeError
deriving DecidableEq

/-- Evaluation of a polynomial given by its coefficient list (ark
DensePolynomial layout: index k holds the coefficient of X^k), Horner style. -/
def polyEval {F : Type} [Field F] : List F → F → F
  | [], _ => 0
  | c :: cs, x => c + x * polyEval cs x

/-- Option-valued map over a list; none models a Rust panic inside the
iterator body propagating out of the whole loop. -/
def mapOpt {α β : Type} (f : α → Option β) : List α → Option (List β)
  | [] => some []
  | a :: l =>
    match f a, mapOpt f l with
    | some b, some bl => some (b :: bl)
    | _, _ => none

/-- Modelled from the spec: the validator descriptor of ferveo_common (its
definition is not under src/): a share index and the validator's G2
encryption key (public_key.encryption_key), represented by its exponent. -/
structure Validator (F : Type) where
  shareIndex : ℕ
  encryptionKey : F
deriving DecidableEq

/-- PubliclyVerifiableSS (src/ferveo/src/pvss.rs, lines 105-124): Feldman
commitment coeffs in G1, encrypted shares in G2, proof-of-knowledge sigma in
G2.  The Unaggregated/Aggregated phantom tag has no behavioural content and
is omitted. -/
structure PubliclyVerifiableSS (F : Type) where
  coeffs : List F
  shares : List F
  sigma : F
deriving DecidableEq

/-- Modelled from the spec: the DKG context PubliclyVerifiableDkg (dkg.rs is
not under src/): security threshold t, the validator mapping in iteration
order, the evaluation domain (generator omega and size m), the pvss_params
group parameters, and the map vss of received transcripts in iteration
order. -/
structure PubliclyVerifiableDkg (F : Type) where
  securityThreshold : ℕ
  validators : List (Validator F)
  domGen : F
  domSize : ℕ
  pvssG : F
  pvssH : F
  vss : List (PubliclyVerifiableSS F)
deriving DecidableEq

/-- Modelled from the spec: a valid DKG context per sections 3 and 6 of the
spec: threshold t in [1, n]; domain size at least n; validators listed in
canonical share-index order (share indices lie in [0, n), are unique, and the
mapping iterates them in key order, so the validator at position i has share
index i); and the group parameters g, h are the fixed generators (exponent
1). -/
def ValidDkg {F : Type} [Field F] (dkg : PubliclyVerifiableDkg F) : Prop :=
  1 ≤ dkg.securityThreshold ∧
  dkg.securityThreshold ≤ dkg.validators.length ∧
  dkg.validators.length ≤ dkg.domSize ∧
  dkg.validators.map Validator.shareIndex = List.range dkg.validators.length ∧
  dkg.pvssG = 1 ∧ dkg.pvssH = 1

/-- Semantics of the evaluation-domain FFT of ark_poly (an external
dependency with a documented interface): the coefficient vector is resized to
the domain size m (truncating or zero-padding) and replaced by the
evaluations at the domain points omega^i for i < m.  Zero-padding does not
change polynomial evaluation, so only the truncation appears explicitly.
Used both for evaluate_over_domain_by_ref in new and for fft_in_place in
do_verify_full. -/
def evalsOnDomain {F : Type} [Field F] (p : List F) (omega : F) (m : ℕ) : List F :=
  (List.range m).map (fun i => polyEval (p.take m) (omega ^ i))

/-- PubliclyVerifiableSS::new (src/ferveo/src/pvss.rs, lines 131-175).  The
secret polynomial is phi = s :: randTail: DensePolynomial::rand draws the
t = securityThreshold coefficients of a degree-(t-1) polynomial from the rng
and the constant one is overwritten by s, so randTail models the t-1 random
higher coefficients supplied by the rng.  coeffs is the fixed-base MSM of phi
against pvss_params.g; each share is ek_i raised to phi(omega^share_index);
sigma is the fixed G2 generator (exponent 1) raised to s — the code uses
E::G2Affine::generator(), not pvss_params.h.  Returns none where the Rust
code panics (evals indexed out of the domain). -/
def PubliclyVerifiableSS.new {F : Type} [Field F] [DecidableEq F]
    (s : F) (dkg : PubliclyVerifiableDkg F) (randTail : List F) :
    Option (RustResult FerveoError (PubliclyVerifiableSS F)) :=
  let phi : List F := s :: randTail
  let evals := evalsOnDomain phi dkg.domGen dkg.domSize
  let coeffs := phi.map (fun c => c * dkg.pvssG)
  match mapOpt (fun v => (evals.get? v.shareIndex).map (fun e => e * v.encryptionKey))
      dkg.validators with
  | none => none
  | some shares =>
    if shares.length = dkg.validators.length then
      some (RustResult.ok { coeffs := coeffs, shares := shares, sigma := s * 1 })
    else
      some (RustResult.err
        (FerveoError.insufficientValidators shares.length dkg.validators.length))

/-- PubliclyVerifiableSS::verify_optimistic (pvss.rs, lines 180-191): checks
e(coeffs[0], h) = e(g, sigma) with the DEFAULT group parameters (the fixed
generators, exponent 1), not the DKG's parameters; none models the Rust
panic when coeffs is empty. -/
def PubliclyVerifiableSS.verifyOptimistic {F : Type} [Field F] [DecidableEq F]
    (self : PubliclyVerifiableSS F) : Option Bool :=
  (self.coeffs.get? 0).map (fun c0 => decide (c0 * 1 = 1 * self.sigma))

/-- Modelled from the spec: assert_no_share_duplicates (a ferveo crate helper
whose definition is not under src/): succeeds iff the validators' share
indices are pairwise distinct. -/
def assertNoShareDuplicates {F : Type} (validators : List (Validator F)) : Bool :=
  decide ((validators.map Validator.shareIndex).Nodup)

/-- The per-validator pairing checks of do_verify_full: the zipped
(validator, share) rows are tested in enumeration order with short-circuit on
the first failure, each row i requiring e(g, Y_i) = e(A_i, ek_i) against
commitment entry A_i; none models the Rust panic when the commitment vector
is indexed out of bounds. -/
def verifyRows {F : Type} [Field F] [DecidableEq F]
    (g : F) (commitment : List F) : ℕ → List (Validator F × F) → Option Bool
  | _, [] => some true
  | i, (v, y) :: rest =>
    match commitment.get? i with
    | none => none
    | some a =>
      if g * y = a * v.encryptionKey then verifyRows g commitment (i + 1) rest
      else some false

/-- do_verify_full (pvss.rs, lines 213-242): FFT the commitment vector over
the evaluation domain, require unique share indices (none models the
expect-panic on duplicates), then run the per-row pairing checks over the
validator list zipped with the shares vector. -/
def doVerifyFull {F : Type} [Field F] [DecidableEq F]
    (pvssCoefficients pvssEncryptedShares : List F) (g : F)
    (validators : List (Validator F)) (domGen : F) (domSize : ℕ) : Option Bool :=
  let commitment := evalsOnDomain pvssCoefficients domGen domSize
  if assertNoShareDuplicates validators then
    verifyRows g commitment 0 (validators.zip pvssEncryptedShares)
  else none

/-- PubliclyVerifiableSS::verify_full (pvss.rs, lines 200-209). -/
def PubliclyVerifiableSS.verifyFull {F : Type} [Field F] [DecidableEq F]
    (self : PubliclyVerifiableSS F) (dkg : PubliclyVerifiableDkg F) : Option Bool :=
  doVerifyFull self.coeffs self.shares dkg.pvssG dkg.validators dkg.domGen dkg.domSize

/-- do_verify_aggregation (pvss.rs, lines 244-273): full verification first
(failure is InvalidTranscriptAggregate), then the sum over the DKG's stored
transcripts of their coeffs[0] must equal the aggregate's coeffs[0]; none
models the Rust indexing panics (a stored transcript with empty coeffs, or an
empty aggregate coeffs vector). -/
def doVerifyAggregation {F : Type} [Field F] [DecidableEq F]
    (pvssAggCoefficients pvssAggEncryptedShares : List F) (g : F)
    (validators : List (Validator F)) (domGen : F) (domSize : ℕ)
    (vss : List (PubliclyVerifiableSS F)) :
    Option (RustResult FerveoError Bool) :=
  match doVerifyFull pvssAggCoefficients pvssAggEncryptedShares g validators domGen domSize with
  | none => none
  | some false => some (RustResult.err FerveoError.invalidTranscriptAggregate)
  | some true =>
    match mapOpt (fun tr => tr.coeffs.get? 0) vss with
    | none => none
    | some firsts =>
      match pvssAggCoefficients.get? 0 with
      | none => none
      | some c0 =>
        if firsts.sum = c0 then some (RustResult.ok true)
        else some (RustResult.err FerveoError.invalidTranscriptAggregate)

/-- PubliclyVerifiableSS::verify_aggregation (pvss.rs, lines 276-294). -/
def PubliclyVerifiableSS.verifyAggregation {F : Type} [Field F] [DecidableEq F]
    (self : PubliclyVerifiableSS F) (dkg : PubliclyVerifiableDkg F) :
    Option (RustResult FerveoError Bool) :=
  doVerifyAggregation self.coeffs self.shares dkg.pvssG dkg.validators
    dkg.domGen dkg.domSize dkg.vss

/-- One step of the aggregation fold of aggregate (pvss.rs, lines 399-409):
pointwise sums of coeffs and shares and the sum of sigmas; none models the
zip_eq panic on a length mismatch. -/
def aggregateStep {F : Type} [Field F] (acc next : PubliclyVerifiableSS F) :
    Option (PubliclyVerifiableSS F) :=
  if acc.coeffs.length = next.coeffs.length ∧ acc.shares.length = next.shares.length then
    some { coeffs := List.zipWith (fun a b => a + b) acc.coeffs next.coeffs,
           shares := List.zipWith (fun a b => a + b) acc.shares next.shares,
           sigma := acc.sigma + next.sigma }
  else none

/-- The iteration of aggregate over the remaining transcripts. -/
def aggregateFold {F : Type} [Field F] :
    PubliclyVerifiableSS F → List (PubliclyVerifiableSS F) → Option (PubliclyVerifiableSS F)
  | acc, [] => some acc
  | acc, tr :: rest =>
    match aggregateStep acc tr with
    | none => none
    | some acc2 => aggregateFold acc2 rest

/-- aggregate (pvss.rs, lines 384-418): NoTranscriptsToAggregate on the empty
list, otherwise fold the pointwise sums starting from the first transcript. -/
def aggregate {F : Type} [Field F] (pvssList : List (PubliclyVerifiableSS F)) :
    Option (RustResult FerveoError (PubliclyVerifiableSS F)) :=
  match pvssList with
  | [] => some (RustResult.err FerveoError.noTranscriptsToAggregate)
  | first :: rest =>
    match aggregateFold first rest with
    | none => none
    | some agg => some (RustResult.ok agg)

/-- make_random_polynomial_with_root (src/ferveo/src/refresh.rs, lines
97-117).  rand models the coefficient vector drawn from the rng by
DensePolynomial::rand (degree + 1 coefficients for degree `degree`); the free
term is zeroed and then set to the negated evaluation at root, so the result
vanishes at root.  The degree argument mirrors the Rust signature; the drawn
coefficients determine the sizes. -/
def makeRandomPolynomialWithRoot {F : Type} [Field F]
    (degree : ℕ) (root : F) (rand : List F) : List F :=
  match rand with
  | [] => []
  | _ :: tail => (0 - polyEval ((0 : F) :: tail) root) :: tail

/-- prepare_share_updates_with_root (refresh.rs, lines 77-95): evaluate the
rooted update polynomial at each domain point and lift the evaluation to G2
with base h. -/
def prepareShareUpdatesWithRoot {F : Type} [Field F]
    (domainPoints : List F) (h : F) (root : F) (threshold : ℕ) (rand : List F) :
    List F :=
  let d := makeRandomPolynomialWithRoot (threshold - 1) root rand
  domainPoints.map (fun x => h * polyEval d x)

/-- prepare_share_updates_for_refresh (refresh.rs, lines 59-73): root 0. -/
def prepareShareUpdatesForRefresh {F : Type} [Field F]
    (domainPoints : List F) (h : F) (threshold : ℕ) (rand : List F) : List F :=
  prepareShareUpdatesWithRoot domainPoints h 0 threshold rand

/-- prepare_share_updates_for_recovery (refresh.rs, lines 13-22): root x_r. -/
def prepareShareUpdatesForRecovery {F : Type} [Field F]
    (domainPoints : List F) (h : F) (xr : F) (threshold : ℕ) (rand : List F) :
    List F :=
  prepareShareUpdatesWithRoot domainPoints h xr threshold rand

/-- Modelled from the spec: the external AEAD (ChaCha20-Poly1305 of the
chacha20poly1305 crate), abstracted by its documented interface: encryption
and decryption under a (key, nonce) pair, with decryption inverting
encryption. -/
structure SymScheme where
  enc : List ℕ → List ℕ → List ℕ → List ℕ
  dec : List ℕ → List ℕ → List ℕ → Option (List ℕ)
  roundtrip : ∀ k n m, dec k n (enc k n m) = some m

/-- Ciphertext (src/tpke/src/ciphertext.rs, lines 18-27): U = commitment in
G1, W = auth_tag in G2 (both by exponent), V = ciphertext bytes. -/
structure Ciphertext (F : Type) where
  commitment : F
  authTag : F
  ciphertext : List ℕ
deriving DecidableEq

/-- construct_tag_hash (ciphertext.rs, lines 202-212): hash-to-G2 of
ser(U) || V || aad.  hashToG2 abstracts the external hash-to-curve suite
(composed with serialization round-trips), its G2 output represented by its
exponent; serG1 abstracts the canonical uncompressed G1 serialization. -/
def constructTagHash {F : Type} (hashToG2 : List ℕ → F) (serG1 : F → List ℕ)
    (commitment : F) (streamCiphertext aad : List ℕ) : F :=
  hashToG2 (serG1 commitment ++ streamCiphertext ++ aad)

/-- Ciphertext::construct_tag_hash (ciphertext.rs, lines 40-48): the same
hash but over ser(U) || V only — no aad is bound. -/
def Ciphertext.constructTagHash {F : Type} (hashToG2 : List ℕ → F)
    (serG1 : F → List ℕ) (self : Ciphertext F) : F :=
  hashToG2 (serG1 self.commitment ++ self.ciphertext)

/-- Ciphertext::check (ciphertext.rs, lines 30-38): the multi-pairing test
e(U, H(U||V)) * e(g_inv, W) = 1, in exponents U * H + gInv * W = 0. -/
def Ciphertext.check {F : Type} [Field F] [DecidableEq F]
    (hashToG2 : List ℕ → F) (serG1 : F → List ℕ)
    (self : Ciphertext F) (gInv : F) : Bool :=
  decide (self.commitment * Ciphertext.constructTagHash hashToG2 serG1 self
    + gInv * self.authTag = 0)

/-- check_ciphertext_validity (ciphertext.rs, lines 103-127): the same
multi-pairing test but with the aad bound into the tag hash. -/
def checkCiphertextValidity {F : Type} [Field F] [DecidableEq F]
    (hashToG2 : List ℕ → F) (serG1 : F → List ℕ)
    (c : Ciphertext F) (aad : List ℕ) (gInv : F) : RustResult TpkeError Unit :=
  if c.commitment * constructTagHash hashToG2 serG1 c.commitment c.ciphertext aad
      + gInv * c.authTag = 0
  then RustResult.ok ()
  else RustResult.err TpkeError.ciphertextVerificationFailed

/-- shared_secret_to_chacha (ciphertext.rs, lines 176-184): the symmetric key
is SHA-256 of the canonical uncompressed serialization of the GT element;
sha and serGT abstract the external primitives. -/
def sharedSecretToChacha {F : Type} (sha : List ℕ → List ℕ)
    (serGT : F → List ℕ) (s : F) : List ℕ :=
  sha (serGT s)

/-- nonce_from_commitment (ciphertext.rs, lines 186-193): the first 12 bytes
of SHA-256 of the serialized commitment. -/
def nonceFromCommitment {F : Type} (sha : List ℕ → List ℕ)
    (serG1 : F → List ℕ) (commitment : F) : List ℕ :=
  (sha (serG1 commitment)).take 12

/-- encrypt (ciphertext.rs, lines 65-98).  r is the scalar drawn from the
rng.  In exponents: s = e(r.Y, h) is pubkey * r, U = g^r is r, and
W = r.H_G2(ser(U) || V || aad). -/
def encrypt {F : Type} [Field F] (hashToG2 : List ℕ → F)
    (serG1 serGT : F → List ℕ) (sha : List ℕ → List ℕ) (aead : SymScheme)
    (message aad : List ℕ) (pubkey : F) (r : F) : Ciphertext F :=
  let product := pubkey * r
  let commitment := r
  let v := aead.enc (sharedSecretToChacha sha serGT product)
    (nonceFromCommitment sha serG1 commitment) message
  let authTag := constructTagHash hashToG2 serG1 commitment v aad * r
  { commitment := commitment, authTag := authTag, ciphertext := v }

/-- decrypt_with_shared_secret_unchecked (ciphertext.rs, lines 144-157):
AEAD-decrypt V under the key derived from the shared secret and the nonce
derived from U; AEAD failure becomes CiphertextVerificationFailed. -/
def decryptWithSharedSecretUnchecked {F : Type} [Field F]
    (serG1 serGT : F → List ℕ) (sha : List ℕ → List ℕ) (aead : SymScheme)
    (ciphertext : Ciphertext F) (sharedSecret : F) : RustResult TpkeError (List ℕ) :=
  match aead.dec (sharedSecretToChacha sha serGT sharedSecret)
      (nonceFromCommitment sha serG1 ciphertext.commitment)
      ciphertext.ciphertext with
  | some plaintext => RustResult.ok plaintext
  | none => RustResult.err TpkeError.ciphertextVerificationFailed

/-- decrypt_symmetric (ciphertext.rs, lines 129-142): integrity check, then
the shared secret e(U, sk) (exponent U * sk), then symmetric decryption. -/
def decryptSymmetric {F : Type} [Field F] [DecidableEq F]
    (hashToG2 : List ℕ → F) (serG1 serGT : F → List ℕ) (sha : List ℕ → List ℕ)
    (aead : SymScheme) (ciphertext : Ciphertext F) (aad : List ℕ)
    (privateKey : F) (gInv : F) : RustResult TpkeError (List ℕ) :=
  match checkCiphertextValidity hashToG2 serG1 ciphertext aad gInv with
  | RustResult.err e => RustResult.err e
  | RustResult.ok _ =>
    decryptWithSharedSecretUnchecked serG1 serGT sha aead ciphertext
      (ciphertext.commitment * privateKey)

/-- ValidatorShareChecksum (src/tpke/src/decryption.rs, lines 36-41):
C_i in G1, by exponent. -/
structure ValidatorShareChecksum (F : Type) where
  checksum : F
deriving DecidableEq

/-- ValidatorShareChecksum::verify (decryption.rs, lines 56-77): the two
pairing equations D_i = e(C_i, Y_i) and e(C_i, pk_i) = e(U, h), in
exponents, with short-circuit on the first failure. -/
def ValidatorShareChecksum.verify {F : Type} [Field F] [DecidableEq F]
    (self : ValidatorShareChecksum F)
    (decryptionShare shareAggregate validatorPublicKey h : F)
    (ciphertext : Ciphertext F) : Bool :=
  if decryptionShare ≠ self.checksum * shareAggregate then false
  else if self.checksum * validatorPublicKey ≠ ciphertext.commitment * h then false
  else true

/-- DecryptionShareSimple (decryption.rs, lines 94-100). -/
structure DecryptionShareSimple (F : Type) where
  decrypterIndex : ℕ
  decryptionShare : F
  validatorChecksum : ValidatorShareChecksum F
deriving DecidableEq

/-- DecryptionShareSimple::verify (decryption.rs, lines 147-161): delegates
to the checksum verification. -/
def DecryptionShareSimple.verify {F : Type} [Field F] [DecidableEq F]
    (self : DecryptionShareSimple F)
    (shareAggregate validatorPublicKey h : F) (ciphertext : Ciphertext F) : Bool :=
  self.validatorChecksum.verify self.decryptionShare shareAggregate
    validatorPublicKey h ciphertext

/-- Discriminates the InsufficientValidators error among the outcomes of
PubliclyVerifiableSS.new. -/
def isInsufficientValidatorsErr {F : Type} :
    Option (RustResult FerveoError (PubliclyVerifiableSS F)) → Bool
  | some (RustResult.err (FerveoError.insufficientValidators _ _)) => true
  | _ => false

instance validDkgDecidable {F : Type} [Field F] [DecidableEq F]
    (dkg : PubliclyVerifiableDkg F) : Decidable (ValidDkg dkg) := by
  unfold ValidDkg
  infer_instance

instance fact11Prime : Fact (Nat.Prime 11) := ⟨by norm_num⟩

theorem polyEval_map_mul {F : Type} [Field F] (g x : F) (p : List F) :
    polyEval (p.map (fun c => c * g)) x = g * polyEval p x := by
  induction p with
  | nil => simp [polyEval]
  | cons c cs ih =>
    simp only [List.map_cons, polyEval, ih]
    ring

theorem evalsOnDomain_length {F : Type} [Field F] (p : List F) (omega : F) (m : ℕ) :
    (evalsOnDomain p omega m).length = m := by
  simp [evalsOnDomain]

theorem evalsOnDomain_map_mul {F : Type} [Field F] (g omega : F) (m : ℕ) (p : List F) :
    evalsOnDomain (p.map (fun c => c * g)) omega m
      = (evalsOnDomain p omega m).map (fun e => g * e) := by
  unfold evalsOnDomain
  rw [List.map_map]
  apply List.map_congr_left
  intro i _
  simp only [Function.comp_apply]
  rw [← List.map_take, polyEval_map_mul]

theorem mapOpt_length {α β : Type} (f : α → Option β) :
    ∀ (l : List α) (r : List β), mapOpt f l = some r → r.length = l.length := by
  intro l
  induction l with
  | nil =>
    intro r h
    simp only [mapOpt] at h
    injection h with h
    subst h
    rfl
  | cons a l ih =>
    intro r h
    cases hfa : f a with
    | none => simp [mapOpt, hfa] at h
    | some b =>
      cases hml : mapOpt f l with
      | none => simp [mapOpt, hfa, hml] at h
      | some bl =>
        simp only [mapOpt, hfa, hml] at h
        injection h with h
        subst h
        simp [ih bl hml]

theorem mapOpt_isSome {α β : Type} (f : α → Option β) :
    ∀ l : List α, (∀ a ∈ l, ∃ b, f a = some b) → ∃ r, mapOpt f l = some r := by
  intro l
  induction l with
  | nil => intro _; exact ⟨[], rfl⟩
  | cons a l ih =>
    intro h
    obtain ⟨b, hb⟩ := h a (by simp)
    obtain ⟨r, hr⟩ := ih (fun a ha => h a (by simp [ha]))
    exact ⟨b :: r, by simp [mapOpt, hb, hr]⟩

theorem getD_zipWith_add {F : Type} [Field F] :
    ∀ (a b : List F) (k : ℕ), k < a.length → k < b.length →
      (List.zipWith (fun x y => x + y) a b).getD k 0 = a.getD k 0 + b.getD k 0 := by
  intro a
  induction a with
  | nil => intro b k h; simp at h
  | cons x xs ih =>
    intro b k ha hb
    cases b with
    | nil => simp at hb
    | cons y ys =>
      cases k with
      | zero => simp
      | succ n =>
        simp only [List.zipWith_cons_cons, List.getD_cons_succ]
        exact ih ys n (by simpa using ha) (by simpa using hb)

theorem zip_eq_zip_take {α β : Type} :
    ∀ (l1 : List α) (l2 : List β), l1.zip l2 = (l1.take l2.length).zip l2 := by
  intro l1
  induction l1 with
  | nil => intro l2; simp
  | cons a l1 ih =>
    intro l2
    cases l2 with
    | nil => simp
    | cons b l2 =>
      simp only [List.length_cons, List.take_succ_cons, List.zip_cons_cons]
      rw [← ih l2]

theorem assertNoShareDuplicates_take {F : Type} (validators : List (Validator F))
    (n : ℕ) (h : assertNoShareDuplicates validators = true) :
    assertNoShareDuplicates (validators.take n) = true := by
  unfold assertNoShareDuplicates at h ⊢
  rw [decide_eq_true_eq] at h ⊢
  rw [List.map_take]
  exact List.Nodup.sublist (List.take_sublist _ _) h

theorem verifyRows_sound {F : Type} [Field F] [DecidableEq F] (g : F) (evals : List F) :
    ∀ (vs : List (Validator F)) (shs : List F) (off : ℕ),
      (∀ j (hj : j < vs.length), (vs.get ⟨j, hj⟩).shareIndex = off + j) →
      mapOpt (fun v => (evals.get? v.shareIndex).map (fun e => e * v.encryptionKey)) vs
        = some shs →
      verifyRows g (evals.map (fun e => g * e)) off (vs.zip shs) = some true := by
  intro vs
  induction vs with
  | nil =>
    intro shs off _ hmap
    simp only [mapOpt] at hmap
    injection hmap with hmap
    subst hmap
    rfl
  | cons v rest ih =>
    intro shs off hidx hmap
    simp only [mapOpt] at hmap
    cases hev : evals.get? v.shareIndex with
    | none =>
      rw [hev, Option.map_none'] at hmap
      cases hml : mapOpt
          (fun v => (evals.get? v.shareIndex).map (fun e => e * v.encryptionKey)) rest with
      | none => rw [hml] at hmap; simp at hmap
      | some tl => rw [hml] at hmap; simp at hmap
    | some e =>
      rw [hev, Option.map_some'] at hmap
      cases hml : mapOpt
          (fun v => (evals.get? v.shareIndex).map (fun e => e * v.encryptionKey)) rest with
      | none => rw [hml] at hmap; simp at hmap
      | some tl =>
        rw [hml] at hmap
        injection hmap with hmap
        subst hmap
        have hv0 : v.shareIndex = off := by
          have h0 := hidx 0 (by simp)
          simpa using h0
        have hcg : (evals.map (fun e => g * e)).get? off = some (g * e) := by
          rw [List.get?_eq_getElem?, List.getElem?_map, ← hv0, ← List.get?_eq_getElem?, hev]
          rfl
        simp only [List.zip_cons_cons, verifyRows, hcg]
        rw [if_pos (by ring)]
        apply ih tl (off + 1) _ hml
        intro j hj
        have hsucc := hidx (j + 1) (by simpa using Nat.succ_lt_succ hj)
        simp only [List.get_cons_succ] at hsucc
        rw [hsucc]
        omega

theorem pvss_new_ok_shape {F : Type} [Field F] [DecidableEq F]
    (s : F) (dkg : PubliclyVerifiableDkg F) (randTail : List F)
    (tr : PubliclyVerifiableSS F)
    (hnew : PubliclyVerifiableSS.new s dkg randTail = some (RustResult.ok tr)) :
    ∃ shares,
      mapOpt (fun v => ((evalsOnDomain (s :: randTail) dkg.domGen dkg.domSize).get?
          v.shareIndex).map (fun e => e * v.encryptionKey)) dkg.validators = some shares ∧
      tr = { coeffs := (s :: randTail).map (fun c => c * dkg.pvssG),
             shares := shares, sigma := s * 1 } := by
  simp only [PubliclyVerifiableSS.new] at hnew
  cases hmap : mapOpt (fun v => ((evalsOnDomain (s :: randTail) dkg.domGen
      dkg.domSize).get? v.shareIndex).map (fun e => e * v.encryptionKey)) dkg.validators with
  | none => rw [hmap] at hnew; exact absurd hnew (by simp)
  | some shares =>
    rw [hmap] at hnew
    dsimp only at hnew
    rw [if_pos (mapOpt_length _ _ _ hmap)] at hnew
    injection hnew with hnew
    injection hnew with hnew
    exact ⟨shares, rfl, hnew.symm⟩

theorem aggregateFold_spec {F : Type} [Field F] :
    ∀ (rest : List (PubliclyVerifiableSS F)) (acc : PubliclyVerifiableSS F),
      (∀ tr ∈ rest, tr.coeffs.length = acc.coeffs.length ∧
        tr.shares.length = acc.shares.length) →
      ∃ agg, aggregateFold acc rest = some agg ∧
        agg.coeffs.length = acc.coeffs.length ∧
        agg.shares.length = acc.shares.length ∧
        agg.sigma = acc.sigma + (rest.map PubliclyVerifiableSS.sigma).sum ∧
        (∀ k, k < acc.coeffs.length →
          agg.coeffs.getD k 0
            = acc.coeffs.getD k 0 + (rest.map (fun tr => tr.coeffs.getD k 0)).sum) ∧
        (∀ k, k < acc.shares.length →
          agg.shares.getD k 0
            = acc.shares.getD k 0 + (rest.map (fun tr => tr.shares.getD k 0)).sum) := by
  intro rest
  induction rest with
  | nil =>
    intro acc _
    exact ⟨acc, rfl, rfl, rfl, by simp, fun k _ => by simp, fun k _ => by simp⟩
  | cons tr rest ih =>
    intro acc hlen
    obtain ⟨hc, hs⟩ := hlen tr (by simp)
    have hstep : aggregateStep acc tr = some
        { coeffs := List.zipWith (fun a b => a + b) acc.coeffs tr.coeffs,
          shares := List.zipWith (fun a b => a + b) acc.shares tr.shares,
          sigma := acc.sigma + tr.sigma } := by
      unfold aggregateStep
      rw [if_pos ⟨hc.symm, hs.symm⟩]
    have h2c : (List.zipWith (fun a b : F => a + b) acc.coeffs tr.coeffs).length
        = acc.coeffs.length := by
      rw [List.length_zipWith, hc, min_self]
    have h2s : (List.zipWith (fun a b : F => a + b) acc.shares tr.shares).length
        = acc.shares.length := by
      rw [List.length_zipWith, hs, min_self]
    obtain ⟨agg, hfold, hl1, hl2, hsig, hcoef, hshr⟩ := ih
      { coeffs := List.zipWith (fun a b => a + b) acc.coeffs tr.coeffs,
        shares := List.zipWith (fun a b => a + b) acc.shares tr.shares,
        sigma := acc.sigma + tr.sigma }
      (by
        intro tr2 htr2
        obtain ⟨hc2, hs2⟩ := hlen tr2 (by simp [htr2])
        exact ⟨by rw [hc2]; exact h2c.symm, by rw [hs2]; exact h2s.symm⟩)
    refine ⟨agg, ?_, ?_, ?_, ?_, ?_, ?_⟩
    · unfold aggregateFold
      rw [hstep]
      exact hfold
    · rw [hl1]; exact h2c
    · rw [hl2]; exact h2s
    · rw [hsig]
      simp only [List.map_cons, List.sum_cons]
      ring
    · intro k hk
      rw [hcoef k (by rw [h2c]; exact hk)]
      have hz : (List.zipWith (fun a b : F => a + b) acc.coeffs tr.coeffs).getD k 0
          = acc.coeffs.getD k 0 + tr.coeffs.getD k 0 :=
        getD_zipWith_add _ _ _ hk (by rw [hc]; exact hk)
      rw [hz]
      simp only [List.map_cons, List.sum_cons]
      ring
    · intro k hk
      rw [hshr k (by rw [h2s]; exact hk)]
      have hz : (List.zipWith (fun a b : F => a + b) acc.shares tr.shares).getD k 0
          = acc.shares.getD k 0 + tr.shares.getD k 0 :=
        getD_zipWith_add _ _ _ hk (by rw [hs]; exact hk)
      rw [hz]
      simp only [List.map_cons, List.sum_cons]
      ring

theorem mapOpt_firsts {F : Type} [Field F] :
    ∀ (vss : List (PubliclyVerifiableSS F)), (∀ tr ∈ vss, tr.coeffs ≠ []) →
      mapOpt (fun tr => tr.coeffs.get? 0) vss
        = some (vss.map (fun tr => tr.coeffs.getD 0 0)) := by
  intro vss
  induction vss with
  | nil => intro _; rfl
  | cons tr rest ih =>
    intro h
    have hget : tr.coeffs.get? 0 = some (tr.coeffs.getD 0 0) := by
      cases hc : tr.coeffs with
      | nil => exact absurd hc (h tr (by simp))
      | cons c cs => simp
    simp only [mapOpt, hget, ih (fun tr2 htr2 => h tr2 (by simp [htr2])), List.map_cons]

theorem doVerifyAggregation_ne_ok_false {F : Type} [Field F] [DecidableEq F]
    (c sh : List F) (g : F) (vl : List (Validator F)) (omega : F) (m : ℕ)
    (vss : List (PubliclyVerifiableSS F)) :
    doVerifyAggregation c sh g vl omega m vss ≠ some (RustResult.ok false) := by
  unfold doVerifyAggregation
  cases doVerifyFull c sh g vl omega m with
  | none => simp
  | some b =>
    cases b with
    | false => simp
    | true =>
      cases mapOpt (fun tr => tr.coeffs.get? 0) vss with
      | none => simp
      | some firsts =>
        cases c.get? 0 with
        | none => simp
        | some c0 =>
          by_cases h : firsts.sum = c0
          · simp [h]
          · simp [h]

theorem polyEval_makeRandomPolynomialWithRoot {F : Type} [Field F]
    (degree : ℕ) (root : F) (rand : List F) :
    polyEval (makeRandomPolynomialWithRoot degree root rand) root = 0 := by
  cases rand with
  | nil => rfl
  | cons c tail =>
    simp only [makeRandomPolynomialWithRoot, polyEval]
    ring

theorem makeRandomPolynomialWithRoot_length {F : Type} [Field F]
    (degree : ℕ) (root : F) (rand : List F) (hrand : rand.length = degree + 1) :
    (makeRandomPolynomialWithRoot degree root rand).length = degree + 1 := by
  cases rand with
  | nil => simp at hrand
  | cons c tail =>
    simp only [makeRandomPolynomialWithRoot, List.length_cons]
    simpa using hrand

theorem validator_shareIndex_canonical {F : Type} (validators : List (Validator F))
    (hcanon : validators.map Validator.shareIndex = List.range validators.length) :
    ∀ j (hj : j < validators.length), (validators.get ⟨j, hj⟩).shareIndex = j := by
  intro j hj
  have h1 : (validators.map Validator.shareIndex).get? j = some j := by
    rw [hcanon, List.get?_eq_getElem?, List.getElem?_range hj]
  rw [List.get?_eq_getElem?, List.getElem?_map, ← List.get?_eq_getElem?,
    List.get?_eq_get hj] at h1
  simpa using h1

/-- Claim C1: for every valid DKG context (threshold t in [1, n], n validators
with unique canonical share indices, domain of size at least n, generator
group parameters) and every secret s, the transcript returned by
PubliclyVerifiableSS::new(s, dkg, rng) — for any rng output randTail of the
t-1 random coefficients — satisfies verify_full(dkg) = true and
verify_optimistic() = true. -/
theorem pvss_new_verifies_full_and_optimistic {F : Type} [Field F] [DecidableEq F]
    (dkg : PubliclyVerifiableDkg F) (s : F) (randTail : List F)
    (tr : PubliclyVerifiableSS F)
    (hdkg : ValidDkg dkg)
    (hrand : randTail.length = dkg.securityThreshold - 1)
    (hnew : PubliclyVerifiableSS.new s dkg randTail = some (RustResult.ok tr)) :
    tr.verifyFull dkg = some true ∧ tr.verifyOptimistic = some true := by
  obtain ⟨ht1, htn, hnm, hcanon, hg, hh⟩ := hdkg
  obtain ⟨shares, hmap, htr⟩ := pvss_new_ok_shape s dkg randTail tr hnew
  subst htr
  constructor
  · unfold PubliclyVerifiableSS.verifyFull doVerifyFull
    have hnodup : assertNoShareDuplicates dkg.validators = true := by
      unfold assertNoShareDuplicates
      rw [hcanon, decide_eq_true_eq]
      exact List.nodup_range _
    rw [if_pos hnodup]
    dsimp only
    rw [evalsOnDomain_map_mul]
    exact verifyRows_sound dkg.pvssG (evalsOnDomain (s :: randTail) dkg.domGen dkg.domSize)
      dkg.validators shares 0
      (fun j hj => by rw [validator_shareIndex_canonical dkg.validators hcanon j hj]; omega)
      hmap
  · unfold PubliclyVerifiableSS.verifyOptimistic
    dsimp only [List.map_cons]
    rw [show ((s * dkg.pvssG :: List.map (fun c => c * dkg.pvssG) randTail).get? 0)
        = some (s * dkg.pvssG) from rfl]
    rw [Option.map_some']
    rw [hg]
    norm_num

/-- Claim C5: for every secret s and every valid DKG context, the transcript
produced by PubliclyVerifiableSS::new(s, dkg, rng) has sigma = h^s, where h
is the G2 group parameter of that DKG context (dkg.pvss_params.h, the fixed
generator in any valid context; the code computes sigma from the G2
generator directly). -/
theorem pvss_new_sigma_is_h_pow_secret {F : Type} [Field F] [DecidableEq F]
    (dkg : PubliclyVerifiableDkg F) (s : F) (randTail : List F)
    (tr : PubliclyVerifiableSS F)
    (hdkg : ValidDkg dkg)
    (hnew : PubliclyVerifiableSS.new s dkg randTail = some (RustResult.ok tr)) :
    tr.sigma = dkg.pvssH * s := by
  obtain ⟨_, _, _, _, _, hh⟩ := hdkg
  obtain ⟨shares, hmap, htr⟩ := pvss_new_ok_shape s dkg randTail tr hnew
  subst htr
  rw [hh]
  ring

/-- Claim C9: PubliclyVerifiableSS::new never returns
Err(InsufficientValidators): the shares vector is built by mapping over the
DKG's validator set so its length always equals the validator count, and
when every validator's share index lies below the evaluation-domain size the
construction succeeds outright (otherwise the evals indexing panics before
the length check is reached). -/
theorem pvss_new_never_insufficient_validators {F : Type} [Field F] [DecidableEq F]
    (s : F) (dkg : PubliclyVerifiableDkg F) (randTail : List F) :
    isInsufficientValidatorsErr (PubliclyVerifiableSS.new s dkg randTail) = false ∧
    ((∀ v ∈ dkg.validators, v.shareIndex < dkg.domSize) →
      ∃ tr, PubliclyVerifiableSS.new s dkg randTail = some (RustResult.ok tr)) := by
  constructor
  · simp only [PubliclyVerifiableSS.new]
    cases hmap : mapOpt (fun v => ((evalsOnDomain (s :: randTail) dkg.domGen
        dkg.domSize).get? v.shareIndex).map (fun e => e * v.encryptionKey))
        dkg.validators with
    | none => rfl
    | some shares =>
      dsimp only
      rw [if_pos (mapOpt_length _ _ _ hmap)]
      rfl
  · intro hidx
    have hsome : ∃ r, mapOpt (fun v => ((evalsOnDomain (s :: randTail) dkg.domGen
        dkg.domSize).get? v.shareIndex).map (fun e => e * v.encryptionKey))
        dkg.validators = some r := by
      apply mapOpt_isSome
      intro v hv
      have hlt : v.shareIndex < (evalsOnDomain (s :: randTail) dkg.domGen
          dkg.domSize).length := by
        rw [evalsOnDomain_length]
        exact hidx v hv
      rw [List.get?_eq_get hlt]
      exact ⟨_, rfl⟩
    obtain ⟨shares, hmap⟩ := hsome
    refine ⟨{ coeffs := (s :: randTail).map (fun c => c * dkg.pvssG),
              shares := shares, sigma := s * 1 }, ?_⟩
    simp only [PubliclyVerifiableSS.new]
    rw [hmap]
    dsimp only
    rw [if_pos (mapOpt_length _ _ _ hmap)]

/-- Claim C2: aggregate on the empty list returns
Err(NoTranscriptsToAggregate); on a non-empty list of transcripts with
componentwise equal coeffs lengths and equal shares lengths it returns Ok of
a transcript whose coeffs and shares are the pointwise sums of the inputs
and whose sigma is the sum of the input sigmas; in particular its coeffs[0]
is the sum of the inputs' coeffs[0]. -/
theorem aggregate_empty_err_and_pointwise_sum {F : Type} [Field F]
    (t0 : PubliclyVerifiableSS F) (rest : List (PubliclyVerifiableSS F))
    (hc : ∀ tr ∈ t0 :: rest, tr.coeffs.length = t0.coeffs.length)
    (hs : ∀ tr ∈ t0 :: rest, tr.shares.length = t0.shares.length) :
    aggregate ([] : List (PubliclyVerifiableSS F))
      = some (RustResult.err FerveoError.noTranscriptsToAggregate) ∧
    ∃ agg, aggregate (t0 :: rest) = some (RustResult.ok agg) ∧
      agg.coeffs.length = t0.coeffs.length ∧
      agg.shares.length = t0.shares.length ∧
      agg.sigma = ((t0 :: rest).map PubliclyVerifiableSS.sigma).sum ∧
      (∀ k, k < t0.coeffs.length →
        agg.coeffs.getD k 0 = ((t0 :: rest).map (fun tr => tr.coeffs.getD k 0)).sum) ∧
      (∀ k, k < t0.shares.length →
        agg.shares.getD k 0 = ((t0 :: rest).map (fun tr => tr.shares.getD k 0)).sum) ∧
      (0 < t0.coeffs.length →
        agg.coeffs.getD 0 0 = ((t0 :: rest).map (fun tr => tr.coeffs.getD 0 0)).sum) := by
  refine ⟨rfl, ?_⟩
  obtain ⟨agg, hfold, hl1, hl2, hsig, hcoef, hshr⟩ := aggregateFold_spec rest t0
    (fun tr htr => ⟨hc tr (by simp [htr]), hs tr (by simp [htr])⟩)
  have hrun : aggregate (t0 :: rest) = some (RustResult.ok agg) := by
    unfold aggregate
    dsimp only
    rw [hfold]
  refine ⟨agg, hrun, hl1, hl2, ?_, ?_, ?_, ?_⟩
  · rw [hsig]
    simp
  · intro k hk
    rw [hcoef k hk]
    simp
  · intro k hk
    rw [hshr k hk]
    simp
  · intro h0
    rw [hcoef 0 h0]
    simp

/-- Claim C4: verify_aggregation on an aggregated transcript returns
Ok(true) iff full verification of the aggregate passes and the aggregate's
coeffs[0] equals the sum of the DKG's stored constituent transcripts'
coeffs[0]; whenever either condition fails it returns
Err(InvalidTranscriptAggregate); and it never returns Ok(false).  Stated
under the hypotheses that full verification does not panic and the indexed
coeffs vectors are non-empty (their indexing panics otherwise). -/
theorem verify_aggregation_characterization {F : Type} [Field F] [DecidableEq F]
    (tr : PubliclyVerifiableSS F) (dkg : PubliclyVerifiableDkg F) (fullOk : Bool)
    (hfull : doVerifyFull tr.coeffs tr.shares dkg.pvssG dkg.validators
      dkg.domGen dkg.domSize = some fullOk)
    (hvss : ∀ t ∈ dkg.vss, t.coeffs ≠ [])
    (hagg : tr.coeffs ≠ []) :
    (tr.verifyAggregation dkg = some (RustResult.ok true) ↔
      (fullOk = true ∧
        tr.coeffs.getD 0 0 = (dkg.vss.map (fun t => t.coeffs.getD 0 0)).sum)) ∧
    ((fullOk = false ∨
        tr.coeffs.getD 0 0 ≠ (dkg.vss.map (fun t => t.coeffs.getD 0 0)).sum) →
      tr.verifyAggregation dkg
        = some (RustResult.err FerveoError.invalidTranscriptAggregate)) ∧
    (∀ (tr2 : PubliclyVerifiableSS F) (dkg2 : PubliclyVerifiableDkg F),
      tr2.verifyAggregation dkg2 ≠ some (RustResult.ok false)) := by
  have hget : tr.coeffs.get? 0 = some (tr.coeffs.getD 0 0) := by
    cases hcs : tr.coeffs with
    | nil => exact absurd hcs hagg
    | cons c cs => simp
  refine ⟨?_, ?_, ?_⟩
  · unfold PubliclyVerifiableSS.verifyAggregation doVerifyAggregation
    rw [hfull]
    cases fullOk with
    | false => simp
    | true =>
      rw [mapOpt_firsts dkg.vss hvss]
      dsimp only
      rw [hget]
      dsimp only
      by_cases hsum : (dkg.vss.map (fun t => t.coeffs.getD 0 0)).sum
          = tr.coeffs.getD 0 0
      · rw [if_pos hsum]
        exact ⟨fun _ => ⟨rfl, hsum.symm⟩, fun _ => rfl⟩
      · rw [if_neg hsum]
        refine ⟨fun h => absurd h (by simp), fun h => absurd h.2.symm hsum⟩
  · intro hbad
    unfold PubliclyVerifiableSS.verifyAggregation doVerifyAggregation
    rw [hfull]
    cases fullOk with
    | false => rfl
    | true =>
      rw [mapOpt_firsts dkg.vss hvss]
      dsimp only
      rw [hget]
      dsimp only
      cases hbad with
      | inl h => exact absurd h (by simp)
      | inr h =>
        rw [if_neg (fun hcontra => h hcontra.symm)]
  · intro tr2 dkg2
    unfold PubliclyVerifiableSS.verifyAggregation
    exact doVerifyAggregation_ne_ok_false _ _ _ _ _ _ _

/-- Claim C8: do_verify_full checks the pairing equation only at positions
where a validator and a share entry are both present: the validator list is
zipped with the shares vector, truncating to the shorter.  For every
duplicate-free validator set, an empty shares vector passes outright, and
with a shares vector no longer than the validator list the outcome equals
the outcome over just the first |shares| validators — no per-validator check
happens for the validators beyond the shares vector. -/
theorem do_verify_full_truncates_to_shares {F : Type} [Field F] [DecidableEq F]
    (coeffs shares : List F) (g omega : F) (m : ℕ)
    (validators : List (Validator F))
    (hnodup : assertNoShareDuplicates validators = true) :
    doVerifyFull coeffs [] g validators omega m = some true ∧
    (shares.length ≤ validators.length →
      doVerifyFull coeffs shares g validators omega m =
        doVerifyFull coeffs shares g (validators.take shares.length) omega m) := by
  constructor
  · unfold doVerifyFull
    rw [if_pos hnodup, List.zip_nil_right]
    rfl
  · intro _
    unfold doVerifyFull
    rw [if_pos hnodup, if_pos (assertNoShareDuplicates_take _ _ hnodup)]
    rw [← zip_eq_zip_take]

/-- Claim C3: for every message, aad, scalar keypair x (public key x.g in G1,
private key x.h in G2) and rng scalar r, decrypting the encryption of the
message under the matching aad and private key (with g_inv = -g) recovers the
message.  Stated for any external hash/serialization/AEAD instances
satisfying the AEAD roundtrip interface. -/
theorem encrypt_decrypt_symmetric_roundtrip {F : Type} [Field F] [DecidableEq F]
    (hashToG2 : List ℕ → F) (serG1 serGT : F → List ℕ) (sha : List ℕ → List ℕ)
    (aead : SymScheme) (message aad : List ℕ) (x r : F) (hx : x ≠ 0) :
    decryptSymmetric hashToG2 serG1 serGT sha aead
      (encrypt hashToG2 serG1 serGT sha aead message aad x r) aad x (0 - 1)
      = RustResult.ok message := by
  have hval : checkCiphertextValidity hashToG2 serG1
      (encrypt hashToG2 serG1 serGT sha aead message aad x r) aad (0 - 1)
      = RustResult.ok () := by
    unfold checkCiphertextValidity encrypt
    dsimp only
    rw [if_pos (by ring)]
  unfold decryptSymmetric
  rw [hval]
  unfold decryptWithSharedSecretUnchecked encrypt sharedSecretToChacha
    nonceFromCommitment
  dsimp only
  rw [mul_comm r x, aead.roundtrip]

/-- Claim C6: DecryptionShareSimple::verify (through
ValidatorShareChecksum::verify) returns true iff both pairing equations
hold: the stored decryption share equals e(C_i, Y_i) for the stored checksum
C_i and the aggregated transcript's share entry Y_i, and e(C_i, pk_i)
equals e(U, h) for the validator public key pk_i and ciphertext commitment
U. -/
theorem decryption_share_simple_verify_iff {F : Type} [Field F] [DecidableEq F]
    (d : DecryptionShareSimple F) (shareAggregate validatorPublicKey h : F)
    (ciphertext : Ciphertext F) :
    d.verify shareAggregate validatorPublicKey h ciphertext = true ↔
      (d.decryptionShare = d.validatorChecksum.checksum * shareAggregate ∧
       d.validatorChecksum.checksum * validatorPublicKey
         = ciphertext.commitment * h) := by
  unfold DecryptionShareSimple.verify ValidatorShareChecksum.verify
  by_cases h1 : d.decryptionShare = d.validatorChecksum.checksum * shareAggregate
  · by_cases h2 : d.validatorChecksum.checksum * validatorPublicKey
        = ciphertext.commitment * h
    · simp [h1, h2]
    · simp [h1, h2]
  · simp [h1]

/-- Claim C7: for every degree d, root r and rng output rand of d+1
coefficients, make_random_polynomial_with_root(d, r, rng) evaluates to zero
at r and has exactly d+1 coefficients; consequently the update vectors of
prepare_share_updates_for_refresh come from the degree-(t-1) polynomial
rooted at 0 and those of prepare_share_updates_for_recovery from the one
rooted at x_r, with one emitted entry h^(d(omega_i)) per domain point. -/
theorem make_random_polynomial_with_root_properties {F : Type} [Field F]
    (degree t : ℕ) (root : F) (rand : List F) (h2 : F) (domainPoints : List F)
    (hrand : rand.length = degree + 1) :
    polyEval (makeRandomPolynomialWithRoot degree root rand) root = 0 ∧
    (makeRandomPolynomialWithRoot degree root rand).length = degree + 1 ∧
    prepareShareUpdatesForRefresh domainPoints h2 t rand
      = domainPoints.map
          (fun x => h2 * polyEval (makeRandomPolynomialWithRoot (t - 1) 0 rand) x) ∧
    polyEval (makeRandomPolynomialWithRoot (t - 1) 0 rand) 0 = 0 ∧
    prepareShareUpdatesForRecovery domainPoints h2 root t rand
      = domainPoints.map
          (fun x => h2 * polyEval (makeRandomPolynomialWithRoot (t - 1) root rand) x) ∧
    polyEval (makeRandomPolynomialWithRoot (t - 1) root rand) root = 0 ∧
    (prepareShareUpdatesForRefresh domainPoints h2 t rand).length
      = domainPoints.length ∧
    (prepareShareUpdatesForRecovery domainPoints h2 root t rand).length
      = domainPoints.length := by
  refine ⟨polyEval_makeRandomPolynomialWithRoot degree root rand,
    makeRandomPolynomialWithRoot_length degree root rand hrand,
    rfl,
    polyEval_makeRandomPolynomialWithRoot (t - 1) 0 rand,
    rfl,
    polyEval_makeRandomPolynomialWithRoot (t - 1) root rand,
    ?_, ?_⟩
  · unfold prepareShareUpdatesForRefresh prepareShareUpdatesWithRoot
    simp
  · unfold prepareShareUpdatesForRecovery prepareShareUpdatesWithRoot
    simp

/-- Claim C10: Ciphertext::check(c, g_inv) returns true iff
check_ciphertext_validity(c, aad, g_inv) returns Ok for the empty aad: the
method's tag hash is computed over U and V only, with no aad bound, which
coincides with the free function's hash input exactly when aad is empty. -/
theorem ciphertext_check_iff_validity_empty_aad {F : Type} [Field F] [DecidableEq F]
    (hashToG2 : List ℕ → F) (serG1 : F → List ℕ) (c : Ciphertext F) (gInv : F) :
    Ciphertext.check hashToG2 serG1 c gInv = true ↔
      checkCiphertextValidity hashToG2 serG1 c [] gInv = RustResult.ok () := by
  unfold Ciphertext.check checkCiphertextValidity constructTagHash
    Ciphertext.constructTagHash
  rw [List.append_nil]
  by_cases h : c.commitment * hashToG2 (serG1 c.commitment ++ c.ciphertext)
      + gInv * c.authTag = 0
  · simp [h]
  · simp [h]

/-- Witness for C1 at a concrete valid DKG over ZMod 11. -/
theorem pvss_new_verifies_full_and_optimistic_witness :
    PubliclyVerifiableSS.verifyFull (⟨[3, 5], [5, 5], 3⟩ : PubliclyVerifiableSS (ZMod 11))
      ⟨2, [⟨0, 2⟩, ⟨1, 3⟩], 10, 2, 1, 1, []⟩ = some true ∧
    PubliclyVerifiableSS.verifyOptimistic
      (⟨[3, 5], [5, 5], 3⟩ : PubliclyVerifiableSS (ZMod 11)) = some true :=
  pvss_new_verifies_full_and_optimistic ⟨2, [⟨0, 2⟩, ⟨1, 3⟩], 10, 2, 1, 1, []⟩
    3 [5] ⟨[3, 5], [5, 5], 3⟩ (by decide) (by decide) (by decide)

/-- Witness for C2 at two concrete transcripts over ZMod 11. -/
theorem aggregate_empty_err_and_pointwise_sum_witness :
    aggregate ([] : List (PubliclyVerifiableSS (ZMod 11)))
      = some (RustResult.err FerveoError.noTranscriptsToAggregate) ∧
    ∃ agg, aggregate
        [(⟨[1, 2], [3], 5⟩ : PubliclyVerifiableSS (ZMod 11)), ⟨[10, 20], [30], 50⟩]
        = some (RustResult.ok agg) ∧
      agg.coeffs.length = 2 ∧
      agg.shares.length = 1 ∧
      agg.sigma = ([(⟨[1, 2], [3], 5⟩ : PubliclyVerifiableSS (ZMod 11)),
        ⟨[10, 20], [30], 50⟩].map PubliclyVerifiableSS.sigma).sum ∧
      (∀ k, k < 2 → agg.coeffs.getD k 0
        = ([(⟨[1, 2], [3], 5⟩ : PubliclyVerifiableSS (ZMod 11)),
            ⟨[10, 20], [30], 50⟩].map (fun tr => tr.coeffs.getD k 0)).sum) ∧
      (∀ k, k < 1 → agg.shares.getD k 0
        = ([(⟨[1, 2], [3], 5⟩ : PubliclyVerifiableSS (ZMod 11)),
            ⟨[10, 20], [30], 50⟩].map (fun tr => tr.shares.getD k 0)).sum) ∧
      (0 < 2 → agg.coeffs.getD 0 0
        = ([(⟨[1, 2], [3], 5⟩ : PubliclyVerifiableSS (ZMod 11)),
            ⟨[10, 20], [30], 50⟩].map (fun tr => tr.coeffs.getD 0 0)).sum) :=
  aggregate_empty_err_and_pointwise_sum ⟨[1, 2], [3], 5⟩ [⟨[10, 20], [30], 50⟩]
    (by decide) (by decide)

/-- Witness for C3 at concrete scalars over ZMod 11, with concrete hash,
serialization and AEAD instances. -/
theorem encrypt_decrypt_symmetric_roundtrip_witness :
    decryptSymmetric (fun _ => (7 : ZMod 11)) (fun a => [a.val]) (fun a => [a.val]) id
      ⟨fun _ _ m => m, fun _ _ c => some c, fun _ _ _ => rfl⟩
      (encrypt (fun _ => (7 : ZMod 11)) (fun a => [a.val]) (fun a => [a.val]) id
        ⟨fun _ _ m => m, fun _ _ c => some c, fun _ _ _ => rfl⟩ [9, 8] [1] 4 6)
      [1] 4 (0 - 1) = RustResult.ok [9, 8] :=
  encrypt_decrypt_symmetric_roundtrip (fun _ => (7 : ZMod 11)) (fun a => [a.val])
    (fun a => [a.val]) id ⟨fun _ _ m => m, fun _ _ c => some c, fun _ _ _ => rfl⟩
    [9, 8] [1] 4 6 (by decide)

/-- Witness for C4 at a concrete aggregate and DKG over ZMod 11. -/
theorem verify_aggregation_characterization_witness :
    ((⟨[4], [], 0⟩ : PubliclyVerifiableSS (ZMod 11)).verifyAggregation
        ⟨1, [], 1, 1, 1, 1, [⟨[4], [], 0⟩]⟩ = some (RustResult.ok true) ↔
      (true = true ∧
        (⟨[4], [], 0⟩ : PubliclyVerifiableSS (ZMod 11)).coeffs.getD 0 0
          = ([(⟨[4], [], 0⟩ : PubliclyVerifiableSS (ZMod 11))].map
              (fun t => t.coeffs.getD 0 0)).sum)) ∧
    ((true = false ∨
        (⟨[4], [], 0⟩ : PubliclyVerifiableSS (ZMod 11)).coeffs.getD 0 0
          ≠ ([(⟨[4], [], 0⟩ : PubliclyVerifiableSS (ZMod 11))].map
              (fun t => t.coeffs.getD 0 0)).sum) →
      (⟨[4], [], 0⟩ : PubliclyVerifiableSS (ZMod 11)).verifyAggregation
          ⟨1, [], 1, 1, 1, 1, [⟨[4], [], 0⟩]⟩
        = some (RustResult.err FerveoError.invalidTranscriptAggregate)) ∧
    (∀ (tr2 : PubliclyVerifiableSS (ZMod 11)) (dkg2 : PubliclyVerifiableDkg (ZMod 11)),
      tr2.verifyAggregation dkg2 ≠ some (RustResult.ok false)) :=
  verify_aggregation_characterization ⟨[4], [], 0⟩ ⟨1, [], 1, 1, 1, 1, [⟨[4], [], 0⟩]⟩
    true (by decide) (by decide) (by decide)

/-- Witness for C5 at the same concrete valid DKG as the C1 witness. -/
theorem pvss_new_sigma_is_h_pow_secret_witness :
    (⟨[3, 5], [5, 5], 3⟩ : PubliclyVerifiableSS (ZMod 11)).sigma
      = (⟨2, [⟨0, 2⟩, ⟨1, 3⟩], 10, 2, 1, 1, []⟩ :
          PubliclyVerifiableDkg (ZMod 11)).pvssH * 3 :=
  pvss_new_sigma_is_h_pow_secret ⟨2, [⟨0, 2⟩, ⟨1, 3⟩], 10, 2, 1, 1, []⟩
    3 [5] ⟨[3, 5], [5, 5], 3⟩ (by decide) (by decide)

/-- Witness for C7 at concrete data over ZMod 11. -/
theorem make_random_polynomial_with_root_properties_witness :
    polyEval (makeRandomPolynomialWithRoot 2 (5 : ZMod 11) [1, 2, 3]) 5 = 0 ∧
    (makeRandomPolynomialWithRoot 2 (5 : ZMod 11) [1, 2, 3]).length = 3 ∧
    prepareShareUpdatesForRefresh ([6, 7] : List (ZMod 11)) 4 3 [1, 2, 3]
      = ([6, 7] : List (ZMod 11)).map
          (fun x => 4 * polyEval (makeRandomPolynomialWithRoot 2 (0 : ZMod 11) [1, 2, 3]) x) ∧
    polyEval (makeRandomPolynomialWithRoot 2 (0 : ZMod 11) [1, 2, 3]) 0 = 0 ∧
    prepareShareUpdatesForRecovery ([6, 7] : List (ZMod 11)) 4 5 3 [1, 2, 3]
      = ([6, 7] : List (ZMod 11)).map
          (fun x => 4 * polyEval (makeRandomPolynomialWithRoot 2 (5 : ZMod 11) [1, 2, 3]) x) ∧
    polyEval (makeRandomPolynomialWithRoot 2 (5 : ZMod 11) [1, 2, 3]) 5 = 0 ∧
    (prepareShareUpdatesForRefresh ([6, 7] : List (ZMod 11)) 4 3 [1, 2, 3]).length = 2 ∧
    (prepareShareUpdatesForRecovery ([6, 7] : List (ZMod 11)) 4 5 3 [1, 2, 3]).length = 2 :=
  make_random_polynomial_with_root_properties 2 3 5 [1, 2, 3] 4 [6, 7] (by decide)

/-- Witness for C8 at a concrete duplicate-free validator list over ZMod 11. -/
theorem do_verify_full_truncates_to_shares_witness :
    doVerifyFull ([1] : List (ZMod 11)) [] 1 [⟨0, 1⟩, ⟨1, 2⟩] 1 2 = some true ∧
    (([5] : List (ZMod 11)).length ≤ ([⟨0, 1⟩, ⟨1, 2⟩] : List (Validator (ZMod 11))).length →
      doVerifyFull ([1] : List (ZMod 11)) [5] 1 [⟨0, 1⟩, ⟨1, 2⟩] 1 2 =
        doVerifyFull ([1] : List (ZMod 11)) [5] 1
          (([⟨0, 1⟩, ⟨1, 2⟩] : List (Validator (ZMod 11))).take
            ([5] : List (ZMod 11)).length) 1 2) :=
  do_verify_full_truncates_to_shares [1] [5] 1 1 2 [⟨0, 1⟩, ⟨1, 2⟩] (by decide)

/-- Witness for C9 at the concrete DKG of the C1 witness. -/
theorem pvss_new_never_insufficient_validators_witness :
    isInsufficientValidatorsErr (PubliclyVerifiableSS.new (3 : ZMod 11)
      ⟨2, [⟨0, 2⟩, ⟨1, 3⟩], 10, 2, 1, 1, []⟩ [5]) = false ∧
    ((∀ v ∈ ([⟨0, 2⟩, ⟨1, 3⟩] : List (Validator (ZMod 11))), v.shareIndex < 2) →
      ∃ tr, PubliclyVerifiableSS.new (3 : ZMod 11)
        ⟨2, [⟨0, 2⟩, ⟨1, 3⟩], 10, 2, 1, 1, []⟩ [5] = some (RustResult.ok tr)) :=
  pvss_new_never_insufficient_validators 3 ⟨2, [⟨0, 2⟩, ⟨1, 3⟩], 10, 2, 1, 1, []⟩ [5]
